import Mathlib

/-!
# Verification of the `taskz` task-list utility

A shallow embedding of the core logic of `src/main.rs`: a task store persisted
as a JSON array (`tasks.json`), a single-slot undo buffer (`undo.json`), and a
fuzzy closest-match resolver based on case-insensitive Levenshtein distance.

Persistent state is modelled as the parse status of the two files: a file is
absent, present with well-formed JSON, or present but malformed.  Each CLI
operation is a function on this state; `undo` can moreover terminate the
process, which is modelled by an explicit outcome type.
-/

set_option maxHeartbeats 1000000

namespace Taskz

/-- A task record, as in `struct Task { description: String, created_at: i64 }`.
`created_at` is a Unix timestamp (`i64` in the source, modelled as `Int`). -/
structure Task where
  description : String
  created_at : Int
deriving DecidableEq, Repr

/-- `strsim::levenshtein`: the unit-cost Levenshtein edit distance between two
character sequences, modelled by Mathlib's `levenshtein` with the default cost
structure (delete = 1, insert = 1, substitute = 0 when equal else 1), which is
the same dynamic-programming recurrence the `strsim` crate implements. -/
def strsimLevenshtein (a b : List Char) : Nat :=
  levenshtein Levenshtein.defaultCost a b

/-- `str::to_lowercase`, modelled as character-wise lowercasing of the
underlying character sequence (`String.toLower` computes the same map but via
byte positions, which the kernel cannot evaluate). -/
def lowercase (s : String) : String :=
  ⟨s.data.map Char.toLower⟩

/-- The key minimised by `find_closest_task`:
`levenshtein(&task.description.to_lowercase(), &query.to_lowercase())`. -/
def taskKey (q : String) (t : Task) : Nat :=
  strsimLevenshtein (lowercase t.description).data (lowercase q).data

/-- Parse status of `tasks.json` on disk: absent, a well-formed JSON array of
tasks, or present but not parseable as `Vec<Task>`. -/
inductive StoreFile where
  | absent
  | json (ts : List Task)
  | malformed
deriving DecidableEq, Repr

/-- Parse status of `undo.json` on disk: absent, a well-formed JSON object of a
single task, or present but not parseable as `Task`. -/
inductive UndoFile where
  | absent
  | json (t : Task)
  | malformed
deriving DecidableEq, Repr

/-- The persistent state the program operates on: the two data files. -/
structure State where
  store : StoreFile
  undo : UndoFile
deriving DecidableEq, Repr

/-- `load_tasks`: missing file yields `vec![]`; parse failure is silently
recovered by `unwrap_or_else(|_| vec![])`. -/
def load_tasks (s : State) : List Task :=
  match s.store with
  | .absent => []
  | .json ts => ts
  | .malformed => []

/-- `save_tasks`: serializes the list and overwrites `tasks.json`. -/
def save_tasks (s : State) (ts : List Task) : State :=
  { s with store := .json ts }

/-- The fold underlying `tasks.iter().enumerate().min_by_key(..)`: carry the
best `(index, key)` pair so far, replacing it only on a strictly smaller key
(Rust's `min_by_key` keeps the first of equally-minimal elements). -/
def find_closest_aux (q : String) : List Task → Nat → Nat × Nat → Nat × Nat
  | [], _, best => best
  | t :: ts, i, best =>
    if taskKey q t < best.2 then find_closest_aux q ts (i + 1) (i, taskKey q t)
    else find_closest_aux q ts (i + 1) best

/-- `find_closest_task`: index of the task whose lowercased description has
minimal Levenshtein distance to the lowercased query; `None` on an empty
slice. -/
def find_closest_task (tasks : List Task) (q : String) : Option Nat :=
  match tasks with
  | [] => none
  | t :: ts => some (find_closest_aux q ts 1 (0, taskKey q t)).1

/-- `mark_done`: remove the closest match from the store, persist the shrunken
store, and overwrite the undo buffer with the removed task.  When no match
exists (empty store) nothing is written. -/
def mark_done (s : State) (q : String) : State :=
  let tasks := load_tasks s
  match find_closest_task tasks q with
  | some index =>
    match tasks[index]? with
    | some removed => { save_tasks s (tasks.eraseIdx index) with undo := .json removed }
    | none => s
  | none => s

/-- Result of running `undo_last`: either the buffer was absent (message, no
change), or the buffer was malformed (message, then `std::process::exit(1)` —
the constructor carries the on-disk state at the moment the process dies,
which is the entry state since the exit happens before any write), or the task
was restored. -/
inductive UndoOutcome where
  | noUndo (s : State)
  | parseFailure (s : State)
  | restored (s : State)
deriving DecidableEq, Repr

/-- `undo_last`: absent buffer is a no-op; malformed buffer is fatal; otherwise
push the buffered task onto the end of the store, persist, and delete the
buffer file. -/
def undo_last (s : State) : UndoOutcome :=
  match s.undo with
  | .absent => .noUndo s
  | .malformed => .parseFailure s
  | .json t =>
    let tasks := load_tasks s
    .restored { save_tasks s (tasks ++ [t]) with undo := .absent }

/-- `edit_task`: replace the description of the closest match in place
(`tasks[index].description = new_description`) and persist. -/
def edit_task (s : State) (q newDescription : String) : State :=
  let tasks := load_tasks s
  match find_closest_task tasks q with
  | some index =>
    match tasks[index]? with
    | some t => save_tasks s (tasks.set index { t with description := newDescription })
    | none => s
  | none => s

/-- `clear_tasks`: persist an empty list; the undo buffer is not touched. -/
def clear_tasks (s : State) : State :=
  save_tasks s []

/-- Lexicographic `≤` on character sequences: Rust's `Ord` on `String`
(byte-wise lexicographic order, which agrees with code-point order under
UTF-8). -/
def charListLe : List Char → List Char → Bool
  | [], _ => true
  | _ :: _, [] => false
  | a :: as, b :: bs => if a < b then true else if b < a then false else charListLe as bs

/-- Comparator for `list -a`:
`a.description.to_lowercase().cmp(&b.description.to_lowercase())`. -/
def descLe (a b : Task) : Bool :=
  charListLe (lowercase a.description).data (lowercase b.description).data

/-- Comparator for default `list`: `a.created_at.cmp(&b.created_at)`. -/
def createdLe (a b : Task) : Bool :=
  decide (a.created_at ≤ b.created_at)

/-- `list_tasks`: load, sort a local copy with a stable sort (Rust `sort_by`),
and print it.  The function performs no write, so the returned state is the
input state. -/
def list_tasks (s : State) (alphabetical : Bool) : List Task × State :=
  let tasks := load_tasks s
  let sorted := if alphabetical then tasks.mergeSort descLe else tasks.mergeSort createdLe
  (sorted, s)

/-! ## Properties of the Levenshtein distance -/

theorem strsimLevenshtein_self (a : List Char) : strsimLevenshtein a a = 0 := by
  induction a with
  | nil => rfl
  | cons x xs ih =>
    simp only [strsimLevenshtein] at ih ⊢
    rw [levenshtein_cons_cons]
    simp only [Levenshtein.defaultCost_delete, Levenshtein.defaultCost_insert,
      Levenshtein.defaultCost_substitute, eq_self_iff_true, if_true, Nat.zero_add, ih]
    omega

theorem strsimLevenshtein_eq_zero {a b : List Char}
    (h : strsimLevenshtein a b = 0) : a = b := by
  induction a generalizing b with
  | nil =>
    cases b with
    | nil => rfl
    | cons y ys =>
      rw [strsimLevenshtein, levenshtein_nil_cons] at h
      simp only [Levenshtein.defaultCost_insert] at h
      omega
  | cons x xs ih =>
    cases b with
    | nil =>
      rw [strsimLevenshtein, levenshtein_cons_nil] at h
      simp only [Levenshtein.defaultCost_delete] at h
      omega
    | cons y ys =>
      simp only [strsimLevenshtein] at h ih
      rw [levenshtein_cons_cons] at h
      simp only [Levenshtein.defaultCost_delete, Levenshtein.defaultCost_insert,
        Levenshtein.defaultCost_substitute] at h
      by_cases hxy : x = y
      · subst hxy
        rw [if_pos rfl, Nat.zero_add] at h
        have h3 : levenshtein Levenshtein.defaultCost xs ys = 0 := by omega
        rw [ih h3]
      · rw [if_neg hxy] at h
        omega

theorem strsimLevenshtein_eq_zero_iff (a b : List Char) :
    strsimLevenshtein a b = 0 ↔ a = b :=
  ⟨strsimLevenshtein_eq_zero, fun h => h ▸ strsimLevenshtein_self a⟩

theorem taskKey_eq_zero_iff (q : String) (t : Task) :
    taskKey q t = 0 ↔ lowercase t.description = lowercase q := by
  rw [taskKey, strsimLevenshtein_eq_zero_iff]
  exact ⟨fun h => String.ext h, fun h => by rw [h]⟩

/-! ## Properties of the list comparators -/

theorem charListLe_total (a b : List Char) :
    charListLe a b = true ∨ charListLe b a = true := by
  induction a generalizing b with
  | nil => left; rfl
  | cons x xs ih =>
    cases b with
    | nil => right; rfl
    | cons y ys =>
      rcases lt_trichotomy x y with hxy | hxy | hxy
      · left; simp [charListLe, hxy]
      · subst hxy
        rcases ih ys with h | h
        · left; simp [charListLe, lt_irrefl, h]
        · right; simp [charListLe, lt_irrefl, h]
      · right; simp [charListLe, hxy]

theorem charListLe_trans {a b c : List Char}
    (h1 : charListLe a b = true) (h2 : charListLe b c = true) :
    charListLe a c = true := by
  induction a generalizing b c with
  | nil => rfl
  | cons x xs ih =>
    cases b with
    | nil => simp [charListLe] at h1
    | cons y ys =>
      cases c with
      | nil => simp [charListLe] at h2
      | cons z zs =>
        simp only [charListLe] at h1 h2 ⊢
        rcases lt_trichotomy x y with hxy | hxy | hxy
        · rcases lt_trichotomy y z with hyz | hyz | hyz
          · simp [lt_trans hxy hyz]
          · subst hyz; simp [hxy]
          · rw [if_neg (lt_asymm hyz), if_pos hyz] at h2; simp at h2
        · subst hxy
          rcases lt_trichotomy x z with hyz | hyz | hyz
          · simp [hyz]
          · subst hyz
            rw [if_neg (lt_irrefl x), if_neg (lt_irrefl x)] at h1 h2 ⊢
            exact ih h1 h2
          · rw [if_neg (lt_asymm hyz), if_pos hyz] at h2; simp at h2
        · rw [if_neg (lt_asymm hxy), if_pos hxy] at h1; simp at h1

theorem descLe_total (a b : Task) : descLe a b = true ∨ descLe b a = true :=
  charListLe_total _ _

theorem descLe_trans {a b c : Task} (h1 : descLe a b = true) (h2 : descLe b c = true) :
    descLe a c = true :=
  charListLe_trans h1 h2

theorem createdLe_total (a b : Task) : createdLe a b = true ∨ createdLe b a = true := by
  simp only [createdLe, decide_eq_true_eq]
  exact le_total _ _

theorem createdLe_trans {a b c : Task}
    (h1 : createdLe a b = true) (h2 : createdLe b c = true) : createdLe a c = true := by
  simp only [createdLe, decide_eq_true_eq] at h1 h2 ⊢
  exact le_trans h1 h2

/-! ## Correctness of `find_closest_task` -/

theorem find_closest_aux_min (q : String) :
    ∀ (ts : List Task) (i : Nat) (b : Nat × Nat),
      (find_closest_aux q ts i b).2 ≤ b.2 ∧
      ∀ t ∈ ts, (find_closest_aux q ts i b).2 ≤ taskKey q t := by
  intro ts
  induction ts with
  | nil =>
    intro i b
    exact ⟨Nat.le_refl _, fun t ht => absurd ht (List.not_mem_nil t)⟩
  | cons t ts ih =>
    intro i b
    simp only [find_closest_aux]
    by_cases h : taskKey q t < b.2
    · rw [if_pos h]
      obtain ⟨h1, h2⟩ := ih (i + 1) (i, taskKey q t)
      refine ⟨le_trans h1 (le_of_lt h), fun u hu => ?_⟩
      rcases List.mem_cons.mp hu with rfl | hu
      · exact h1
      · exact h2 u hu
    · rw [if_neg h]
      obtain ⟨h1, h2⟩ := ih (i + 1) b
      refine ⟨h1, fun u hu => ?_⟩
      rcases List.mem_cons.mp hu with rfl | hu
      · exact le_trans h1 (le_of_not_lt h)
      · exact h2 u hu

theorem find_closest_aux_cases (q : String) :
    ∀ (ts : List Task) (i : Nat) (b : Nat × Nat),
      (find_closest_aux q ts i b = b ∧ ∀ t ∈ ts, b.2 ≤ taskKey q t) ∨
      (∃ j tj, ts[j]? = some tj ∧
        find_closest_aux q ts i b = (i + j, taskKey q tj) ∧
        taskKey q tj < b.2 ∧
        ∀ l tl, l < j → ts[l]? = some tl → taskKey q tj < taskKey q tl) := by
  intro ts
  induction ts with
  | nil =>
    intro i b
    exact .inl ⟨rfl, fun t ht => absurd ht (List.not_mem_nil t)⟩
  | cons t ts ih =>
    intro i b
    simp only [find_closest_aux]
    by_cases h : taskKey q t < b.2
    · rw [if_pos h]
      right
      rcases ih (i + 1) (i, taskKey q t) with ⟨heq, hall⟩ | ⟨j, tj, hj, heq, hlt, hmin⟩
      · refine ⟨0, t, by simp, by simpa using heq, h, ?_⟩
        intro l tl hl
        exact absurd hl (Nat.not_lt_zero l)
      · refine ⟨j + 1, tj, by simpa using hj, ?_, lt_trans hlt h, ?_⟩
        · rw [heq]
          congr 1
          omega
        · intro l tl hl hsome
          cases l with
          | zero =>
            obtain rfl : t = tl := by simpa using hsome
            exact hlt
          | succ l =>
            exact hmin l tl (by omega) (by simpa using hsome)
    · rw [if_neg h]
      rcases ih (i + 1) b with ⟨heq, hall⟩ | ⟨j, tj, hj, heq, hlt, hmin⟩
      · refine .inl ⟨heq, fun u hu => ?_⟩
        rcases List.mem_cons.mp hu with rfl | hu
        · exact le_of_not_lt h
        · exact hall u hu
      · right
        refine ⟨j + 1, tj, by simpa using hj, ?_, hlt, ?_⟩
        · rw [heq]
          congr 1
          omega
        · intro l tl hl hsome
          cases l with
          | zero =>
            obtain rfl : t = tl := by simpa using hsome
            exact lt_of_lt_of_le hlt (le_of_not_lt h)
          | succ l =>
            exact hmin l tl (by omega) (by simpa using hsome)

/-- `find_closest_task` on a non-empty slice returns the index of a stored
task whose key is minimal, and every strictly earlier task has a strictly
larger key (Rust's `min_by_key` keeps the first minimum). -/
theorem find_closest_spec (tasks : List Task) (q : String) (h : tasks ≠ []) :
    ∃ i ti, find_closest_task tasks q = some i ∧ tasks[i]? = some ti ∧
      (∀ t ∈ tasks, taskKey q ti ≤ taskKey q t) ∧
      (∀ l tl, l < i → tasks[l]? = some tl → taskKey q ti < taskKey q tl) := by
  cases tasks with
  | nil => exact absurd rfl h
  | cons t ts =>
    obtain ⟨hm1, hm2⟩ := find_closest_aux_min q ts 1 (0, taskKey q t)
    rcases find_closest_aux_cases q ts 1 (0, taskKey q t) with
      ⟨heq, hall⟩ | ⟨j, tj, hj, heq, hlt, hminj⟩
    · refine ⟨0, t, ?_, by simp, ?_, ?_⟩
      · simp [find_closest_task, heq]
      · intro u hu
        rcases List.mem_cons.mp hu with rfl | hu
        · exact Nat.le_refl _
        · exact hall u hu
      · intro l tl hl
        exact absurd hl (Nat.not_lt_zero l)
    · refine ⟨1 + j, tj, ?_, ?_, ?_, ?_⟩
      · simp [find_closest_task, heq]
      · rw [show 1 + j = j + 1 by omega]
        simpa using hj
      · intro u hu
        have hkey : (find_closest_aux q ts 1 (0, taskKey q t)).2 = taskKey q tj := by
          rw [heq]
        rcases List.mem_cons.mp hu with rfl | hu
        · exact hkey ▸ hm1
        · exact hkey ▸ hm2 u hu
      · intro l tl hl hsome
        cases l with
        | zero =>
          obtain rfl : t = tl := by simpa using hsome
          exact hlt
        | succ l =>
          exact hminj l tl (by omega) (by simpa using hsome)

/-! ## Behaviour of the store operations -/

theorem mark_done_of_ne_nil (s : State) (q : String) (h : load_tasks s ≠ []) :
    ∃ i r, find_closest_task (load_tasks s) q = some i ∧ (load_tasks s)[i]? = some r ∧
      mark_done s q = ⟨.json ((load_tasks s).eraseIdx i), .json r⟩ := by
  obtain ⟨i, r, hfind, hget, -, -⟩ := find_closest_spec (load_tasks s) q h
  refine ⟨i, r, hfind, hget, ?_⟩
  simp only [mark_done, hfind, hget, save_tasks]

theorem edit_task_of_ne_nil (s : State) (q d : String) (h : load_tasks s ≠ []) :
    ∃ i t, find_closest_task (load_tasks s) q = some i ∧
      (load_tasks s)[i]? = some t ∧
      edit_task s q d = ⟨.json ((load_tasks s).set i ⟨d, t.created_at⟩), s.undo⟩ := by
  obtain ⟨i, t, hfind, hget, -, -⟩ := find_closest_spec (load_tasks s) q h
  refine ⟨i, t, hfind, hget, ?_⟩
  simp only [edit_task, hfind, hget, save_tasks]

theorem eraseIdx_append_self_perm {l : List Task} {i : Nat} {r : Task}
    (h : l[i]? = some r) : (l.eraseIdx i ++ [r]).Perm l := by
  obtain ⟨hi, hr⟩ := List.getElem?_eq_some_iff.mp h
  have h1 : l.drop i = r :: l.drop (i + 1) := by
    rw [List.drop_eq_getElem_cons hi, hr]
  conv_rhs => rw [← List.take_append_drop i l, h1]
  rw [List.eraseIdx_eq_take_drop_succ, List.append_assoc]
  exact List.Perm.append_left _ (List.perm_append_singleton r _)

/-! ## The claims -/

/-- C1 (counterexample): on the store `[a, b]`, `done "a"` removes the first
task, and the subsequent `undo` appends it at the end, producing the store
`[b, a]`, which is not equal (as the persisted sequence) to the original
`[a, b]`.  So `done` followed by `undo` does not restore a store equal to the
original. -/
theorem done_undo_counterexample :
    load_tasks ⟨.json [⟨"a", 0⟩, ⟨"b", 1⟩], .absent⟩ ≠ [] ∧
    mark_done ⟨.json [⟨"a", 0⟩, ⟨"b", 1⟩], .absent⟩ "a" =
      ⟨.json [⟨"b", 1⟩], .json ⟨"a", 0⟩⟩ ∧
    undo_last (mark_done ⟨.json [⟨"a", 0⟩, ⟨"b", 1⟩], .absent⟩ "a") =
      .restored ⟨.json [⟨"b", 1⟩, ⟨"a", 0⟩], .absent⟩ ∧
    StoreFile.json [⟨"b", 1⟩, ⟨"a", 0⟩] ≠ StoreFile.json [⟨"a", 0⟩, ⟨"b", 1⟩] := by
  decide

/-- C1 (amended): when `done(q)` removes a task, `done(q)` followed by `undo()`
yields a store that is a permutation of (equal as a multiset to) the original
store — it is equal as a sequence only when the removed task was last — and
the undo buffer is empty afterward. -/
theorem done_undo_restores_store_up_to_permutation (s : State) (q : String)
    (h : load_tasks s ≠ []) :
    ∃ s1, undo_last (mark_done s q) = .restored s1 ∧
      (load_tasks s1).Perm (load_tasks s) ∧ s1.undo = .absent := by
  obtain ⟨i, r, hfind, hget, hmd⟩ := mark_done_of_ne_nil s q h
  refine ⟨⟨.json ((load_tasks s).eraseIdx i ++ [r]), .absent⟩, ?_, ?_, rfl⟩
  · rw [hmd]
    rfl
  · exact eraseIdx_append_self_perm hget

theorem done_undo_restores_store_up_to_permutation_witness :
    ∃ s1, undo_last (mark_done ⟨.json [⟨"a", 0⟩, ⟨"b", 1⟩], .absent⟩ "a") = .restored s1 ∧
      (load_tasks s1).Perm (load_tasks ⟨.json [⟨"a", 0⟩, ⟨"b", 1⟩], .absent⟩) ∧
      s1.undo = .absent :=
  done_undo_restores_store_up_to_permutation ⟨.json [⟨"a", 0⟩, ⟨"b", 1⟩], .absent⟩ "a"
    (by decide)

/-- C2: on a non-empty store, closest-match resolution returns the index of a
task whose case-insensitive Levenshtein distance to the query is minimal; any
strictly earlier task has a strictly larger distance (first-in-store-order
tie-break); a query whose lowercasing equals some stored description resolves
to a task at distance 0 with that (lowercased) description; and on the empty
store no match exists.  Determinism is immediate: `find_closest_task` is a
pure function of the store and the query. -/
theorem closest_match_minimal (tasks : List Task) (q : String) :
    find_closest_task [] q = none ∧
    (tasks ≠ [] → ∃ i ti,
      find_closest_task tasks q = some i ∧ tasks[i]? = some ti ∧
      (∀ t ∈ tasks, taskKey q ti ≤ taskKey q t) ∧
      (∀ l tl, l < i → tasks[l]? = some tl → taskKey q ti < taskKey q tl) ∧
      (∀ t ∈ tasks, lowercase t.description = lowercase q →
        lowercase ti.description = lowercase q ∧ taskKey q ti = 0)) := by
  refine ⟨rfl, fun h => ?_⟩
  obtain ⟨i, ti, hfind, hget, hmin, htie⟩ := find_closest_spec tasks q h
  refine ⟨i, ti, hfind, hget, hmin, htie, fun t ht hlow => ?_⟩
  have h0 : taskKey q t = 0 := (taskKey_eq_zero_iff q t).mpr hlow
  have hz : taskKey q ti = 0 := Nat.le_zero.mp (h0 ▸ hmin t ht)
  exact ⟨(taskKey_eq_zero_iff q ti).mp hz, hz⟩

theorem closest_match_minimal_witness :
    ∃ i ti,
      find_closest_task [⟨"a", 0⟩] "b" = some i ∧
      ([⟨"a", 0⟩] : List Task)[i]? = some ti ∧
      (∀ t ∈ ([⟨"a", 0⟩] : List Task), taskKey "b" ti ≤ taskKey "b" t) ∧
      (∀ l tl, l < i → ([⟨"a", 0⟩] : List Task)[l]? = some tl →
        taskKey "b" ti < taskKey "b" tl) ∧
      (∀ t ∈ ([⟨"a", 0⟩] : List Task), lowercase t.description = lowercase "b" →
        lowercase ti.description = lowercase "b" ∧ taskKey "b" ti = 0) :=
  (closest_match_minimal [⟨"a", 0⟩] "b").2 (by decide)

/-- C3: when the undo buffer file is present but malformed, `undo` reports a
parse failure and terminates the process (`UndoOutcome.parseFailure`, carrying
the on-disk state at the moment of exit), and the task store is unchanged: the
exit state is the entry state, so no task was added, removed, or rewritten. -/
theorem undo_malformed_fatal_store_unchanged (s : State) (h : s.undo = .malformed) :
    ∃ sExit, undo_last s = .parseFailure sExit ∧ sExit = s ∧
      load_tasks sExit = load_tasks s :=
  ⟨s, by simp only [undo_last, h], rfl, rfl⟩

theorem undo_malformed_fatal_store_unchanged_witness :
    ∃ sExit, undo_last ⟨.json [⟨"a", 0⟩], .malformed⟩ = .parseFailure sExit ∧
      sExit = ⟨.json [⟨"a", 0⟩], .malformed⟩ ∧
      load_tasks sExit = load_tasks ⟨.json [⟨"a", 0⟩], .malformed⟩ :=
  undo_malformed_fatal_store_unchanged ⟨.json [⟨"a", 0⟩], .malformed⟩ rfl

/-- C4: `load` returns the empty sequence when the store file is absent, and
also (silently) when the file is present but malformed. -/
theorem load_missing_or_corrupt_store_empty :
    (∀ u, load_tasks ⟨.absent, u⟩ = []) ∧ ∀ u, load_tasks ⟨.malformed, u⟩ = [] :=
  ⟨fun _ => rfl, fun _ => rfl⟩

/-- C5: after two consecutive `done` calls that each remove a task, the undo
buffer holds exactly the second removed task (the first was overwritten), and
`undo` restores exactly that second task. -/
theorem undo_buffer_single_slot (s : State) (q1 q2 : String)
    (h : 1 < (load_tasks s).length) :
    ∃ r1 r2, (mark_done s q1).undo = .json r1 ∧
      (mark_done (mark_done s q1) q2).undo = .json r2 ∧
      undo_last (mark_done (mark_done s q1) q2) =
        .restored ⟨.json (load_tasks (mark_done (mark_done s q1) q2) ++ [r2]), .absent⟩ := by
  have h1 : load_tasks s ≠ [] := by
    intro he
    rw [he] at h
    simp at h
  obtain ⟨i1, r1, hf1, hg1, hmd1⟩ := mark_done_of_ne_nil s q1 h1
  have hi1 : i1 < (load_tasks s).length := (List.getElem?_eq_some_iff.mp hg1).1
  have h2 : load_tasks (mark_done s q1) ≠ [] := by
    rw [hmd1]
    show (load_tasks s).eraseIdx i1 ≠ []
    intro he
    have hlen := List.length_eraseIdx_of_lt hi1
    rw [he] at hlen
    simp at hlen
    omega
  obtain ⟨i2, r2, hf2, hg2, hmd2⟩ := mark_done_of_ne_nil (mark_done s q1) q2 h2
  refine ⟨r1, r2, by rw [hmd1], by rw [hmd2], ?_⟩
  rw [hmd2]
  rfl

theorem undo_buffer_single_slot_witness :
    ∃ r1 r2,
      (mark_done ⟨.json [⟨"a", 0⟩, ⟨"b", 1⟩], .absent⟩ "a").undo = .json r1 ∧
      (mark_done (mark_done ⟨.json [⟨"a", 0⟩, ⟨"b", 1⟩], .absent⟩ "a") "b").undo = .json r2 ∧
      undo_last (mark_done (mark_done ⟨.json [⟨"a", 0⟩, ⟨"b", 1⟩], .absent⟩ "a") "b") =
        .restored ⟨.json
          (load_tasks (mark_done (mark_done ⟨.json [⟨"a", 0⟩, ⟨"b", 1⟩], .absent⟩ "a") "b")
            ++ [r2]), .absent⟩ :=
  undo_buffer_single_slot ⟨.json [⟨"a", 0⟩, ⟨"b", 1⟩], .absent⟩ "a" "b" (by decide)

/-- C6: when a closest match exists, `edit(query, d)` persists a store in
which the matched task's description is replaced by `d` with its creation
timestamp unchanged, every other position holds exactly the task it held
before, the length is unchanged, and the undo buffer is untouched. -/
theorem edit_replaces_only_matched_description (s : State) (q d : String)
    (h : load_tasks s ≠ []) :
    ∃ i t ts2, find_closest_task (load_tasks s) q = some i ∧
      (load_tasks s)[i]? = some t ∧
      edit_task s q d = ⟨.json ts2, s.undo⟩ ∧
      ts2[i]? = some ⟨d, t.created_at⟩ ∧
      ts2.length = (load_tasks s).length ∧
      ∀ j, j ≠ i → ts2[j]? = (load_tasks s)[j]? := by
  obtain ⟨i, t, hfind, hget, hed⟩ := edit_task_of_ne_nil s q d h
  have hi : i < (load_tasks s).length := (List.getElem?_eq_some_iff.mp hget).1
  refine ⟨i, t, (load_tasks s).set i ⟨d, t.created_at⟩, hfind, hget, hed, ?_, ?_, ?_⟩
  · exact List.getElem?_set_self hi
  · exact List.length_set _ _ _
  · intro j hj
    exact List.getElem?_set_ne fun he => hj he.symm

theorem edit_replaces_only_matched_description_witness :
    ∃ i t ts2,
      find_closest_task (load_tasks ⟨.json [⟨"a", 0⟩, ⟨"b", 1⟩], .absent⟩) "b" = some i ∧
      (load_tasks ⟨.json [⟨"a", 0⟩, ⟨"b", 1⟩], .absent⟩)[i]? = some t ∧
      edit_task ⟨.json [⟨"a", 0⟩, ⟨"b", 1⟩], .absent⟩ "b" "c" =
        ⟨.json ts2, State.undo ⟨.json [⟨"a", 0⟩, ⟨"b", 1⟩], .absent⟩⟩ ∧
      ts2[i]? = some ⟨"c", t.created_at⟩ ∧
      ts2.length = (load_tasks ⟨.json [⟨"a", 0⟩, ⟨"b", 1⟩], .absent⟩).length ∧
      ∀ j, j ≠ i → ts2[j]? = (load_tasks ⟨.json [⟨"a", 0⟩, ⟨"b", 1⟩], .absent⟩)[j]? :=
  edit_replaces_only_matched_description ⟨.json [⟨"a", 0⟩, ⟨"b", 1⟩], .absent⟩ "b" "c"
    (by decide)

/-- C7: for every prior state — empty, absent, or corrupt store included —
`clear` persists an empty store and leaves the undo buffer untouched; and
whenever a preceding `done` removed a task, that task is still restorable by
`undo` after `clear`, the restored store being exactly that one task. -/
theorem clear_empties_store_preserves_undo (s : State) (q : String) :
    load_tasks (clear_tasks s) = [] ∧
    (clear_tasks s).undo = s.undo ∧
    (load_tasks s ≠ [] →
      ∃ r, (mark_done s q).undo = .json r ∧
        undo_last (clear_tasks (mark_done s q)) = .restored ⟨.json [r], .absent⟩) := by
  refine ⟨rfl, rfl, fun h => ?_⟩
  obtain ⟨i, r, hfind, hget, hmd⟩ := mark_done_of_ne_nil s q h
  refine ⟨r, by rw [hmd], ?_⟩
  rw [hmd]
  rfl

theorem clear_empties_store_preserves_undo_witness :
    ∃ r, (mark_done ⟨.json [⟨"a", 0⟩], .json ⟨"z", 9⟩⟩ "a").undo = .json r ∧
      undo_last (clear_tasks (mark_done ⟨.json [⟨"a", 0⟩], .json ⟨"z", 9⟩⟩ "a")) =
        .restored ⟨.json [r], .absent⟩ :=
  (clear_empties_store_preserves_undo ⟨.json [⟨"a", 0⟩], .json ⟨"z", 9⟩⟩ "a").2.2
    (by decide)

/-- C8: `list` returns all stored tasks — a permutation of the loaded store —
sorted by case-insensitive description in alphabetical mode and by creation
timestamp (ascending) in default mode, and in neither mode does it write
anything back: the resulting state is the input state. -/
theorem list_sorted_and_pure (s : State) (b : Bool) :
    (list_tasks s b).2 = s ∧
    ((list_tasks s b).1).Perm (load_tasks s) ∧
    ((list_tasks s true).1.Pairwise fun a b => descLe a b = true) ∧
    ((list_tasks s false).1.Pairwise fun a b => createdLe a b = true) := by
  have htransD : ∀ a b c : Task, descLe a b → descLe b c → descLe a c :=
    fun a b c h1 h2 => descLe_trans h1 h2
  have htotalD : ∀ a b : Task, descLe a b || descLe b a := by
    intro a b
    rcases descLe_total a b with h | h <;> simp [h]
  have htransC : ∀ a b c : Task, createdLe a b → createdLe b c → createdLe a c :=
    fun a b c h1 h2 => createdLe_trans h1 h2
  have htotalC : ∀ a b : Task, createdLe a b || createdLe b a := by
    intro a b
    rcases createdLe_total a b with h | h <;> simp [h]
  refine ⟨rfl, ?_, ?_, ?_⟩
  · cases b <;> simpa [list_tasks] using List.mergeSort_perm (load_tasks s) _
  · have hs := List.sorted_mergeSort htransD htotalD (load_tasks s)
    simpa [list_tasks] using hs
  · have hs := List.sorted_mergeSort htransC htotalC (load_tasks s)
    simpa [list_tasks] using hs

/-- C9: on a non-empty store every query resolves to some task (there is no
distance threshold), so `done` always removes one task and `edit` always
rewrites one; the no-match outcome occurs exactly on the empty store, where
`done` and `edit` leave the state unchanged. -/
theorem nonempty_store_always_matches (s : State) (q d : String) :
    (load_tasks s = [] →
      find_closest_task (load_tasks s) q = none ∧ mark_done s q = s ∧ edit_task s q d = s) ∧
    (load_tasks s ≠ [] →
      (∃ i, find_closest_task (load_tasks s) q = some i) ∧
      (load_tasks (mark_done s q)).length + 1 = (load_tasks s).length ∧
      (∃ (i : Nat) (t : Task), (load_tasks s)[i]? = some t ∧
        (load_tasks (edit_task s q d))[i]? = some ⟨d, t.created_at⟩)) := by
  constructor
  · intro he
    refine ⟨by rw [he]; rfl, ?_, ?_⟩
    · simp only [mark_done, he, find_closest_task]
    · simp only [edit_task, he, find_closest_task]
  · intro h
    obtain ⟨i1, r1, hf1, hg1, hmd1⟩ := mark_done_of_ne_nil s q h
    obtain ⟨i2, t2, hf2, hg2, hed2⟩ := edit_task_of_ne_nil s q d h
    have hi1 : i1 < (load_tasks s).length := (List.getElem?_eq_some_iff.mp hg1).1
    have hi2 : i2 < (load_tasks s).length := (List.getElem?_eq_some_iff.mp hg2).1
    refine ⟨⟨i1, hf1⟩, ?_, ⟨i2, t2, hg2, ?_⟩⟩
    · rw [hmd1]
      show ((load_tasks s).eraseIdx i1).length + 1 = (load_tasks s).length
      rw [List.length_eraseIdx_of_lt hi1]
      omega
    · rw [hed2]
      show ((load_tasks s).set i2 ⟨d, t2.created_at⟩)[i2]? = some ⟨d, t2.created_at⟩
      exact List.getElem?_set_self hi2

theorem nonempty_store_always_matches_witness :
    (∃ i, find_closest_task (load_tasks ⟨.json [⟨"a", 0⟩], .absent⟩) "zzz" = some i) ∧
    (load_tasks (mark_done ⟨.json [⟨"a", 0⟩], .absent⟩ "zzz")).length + 1 =
      (load_tasks ⟨.json [⟨"a", 0⟩], .absent⟩).length ∧
    (∃ (i : Nat) (t : Task), (load_tasks ⟨.json [⟨"a", 0⟩], .absent⟩)[i]? = some t ∧
      (load_tasks (edit_task ⟨.json [⟨"a", 0⟩], .absent⟩ "zzz" "w"))[i]? =
        some ⟨"w", t.created_at⟩) :=
  (nonempty_store_always_matches ⟨.json [⟨"a", 0⟩], .absent⟩ "zzz" "w").2 (by decide)

/-- C10: when the undo buffer holds a task, `undo` appends it at the end of
the store sequence, after all currently stored tasks, whatever position it
occupied before the preceding `done`; the buffer is deleted afterwards. -/
theorem undo_appends_to_end (s : State) (t : Task) (h : s.undo = .json t) :
    undo_last s = .restored ⟨.json (load_tasks s ++ [t]), .absent⟩ := by
  simp only [undo_last, h, save_tasks]

theorem undo_appends_to_end_witness :
    undo_last ⟨.json [⟨"a", 0⟩], .json ⟨"b", 1⟩⟩ =
      .restored ⟨.json (load_tasks ⟨.json [⟨"a", 0⟩], .json ⟨"b", 1⟩⟩ ++ [⟨"b", 1⟩]),
        .absent⟩ :=
  undo_appends_to_end ⟨.json [⟨"a", 0⟩], .json ⟨"b", 1⟩⟩ ⟨"b", 1⟩ rfl

end Taskz
